import Mathlib

/-!
# Verification of the real-time bias/sentiment detection pipeline

A shallow embedding, in Lean 4, of the hybrid lexicon-plus-classifier
text-scoring subsystem of the interview-assistant backend
(`backend/app/routers/realtime_bias.py` and the sentiment mapping of
`backend/app/routers/ai.py`), together with proofs of the behavioural
properties claimed for it.

Modelling conventions:
* Python strings are modelled as `List Char`; `str.lower`, `str.split`,
  `str.strip`, `str.find` and the substring test `in` are embedded as
  executable functions on `List Char`.
* Python floats are modelled as exact rationals (`ℚ`); the float literals
  of the source (`0.7`, `0.9`, …) become the corresponding rationals.
* The scikit-learn classifier is an external component: it is modelled as
  an oracle `List Char → Except PyExc (Bool × ℚ)` (a possibly-failing
  function from the classified text to the `(prediction, probability)`
  pair the source extracts from it).
* Python exceptions are modelled with `Except PyExc`; the catch-all
  `try`/`except` of the HTTP handler is modelled by an explicit
  `fault : Option PyExc` input standing for an exception raised anywhere
  inside the `try` block.
* `processing_time_ms` is a wall-clock measurement (`time.time()`); it is
  outside the embedding and is omitted from the result record.
-/

/-- The characters of a string literal, as a `List Char`. -/
def cs (x : String) : List Char := x.data

/-- Whitespace in the sense of Python's `str.split` / `str.strip`
(space, tab, linefeed, return, vertical tab, formfeed). -/
def isPySpace (c : Char) : Bool :=
  c == ' ' || c == '\t' || c == '\n' || c == '\r' || c == '\x0b' || c == '\x0c'

/-- Python `str.lower`, character by character (the source only lowercases
ASCII keyword material). -/
def pyLower (t : List Char) : List Char := t.map Char.toLower

/-- Python `str.strip()`: remove leading and trailing whitespace. -/
def pyStrip (t : List Char) : List Char :=
  ((t.dropWhile (fun c => isPySpace c)).reverse.dropWhile (fun c => isPySpace c)).reverse

/-- `strStarts pat s` is true when `s` starts with `pat`
(Python `s.startswith(pat)`, used to define substring search). -/
def strStarts : List Char → List Char → Bool
  | [], _ => true
  | _ :: _, [] => false
  | c :: ps, d :: ss => c == d && strStarts ps ss

/-- Python's substring test `pat in hay`. -/
def isSubstr : List Char → List Char → Bool
  | pat, [] => pat.isEmpty
  | pat, d :: ss => strStarts pat (d :: ss) || isSubstr pat ss

/-- Python `hay.find(pat)`: index of the first occurrence of `pat` in
`hay` (the source only calls it after a successful substring test). -/
def strFind : List Char → List Char → Nat
  | [], _ => 0
  | d :: ss, pat => if strStarts pat (d :: ss) then 0 else strFind ss pat + 1

/-- Python `text.split()`: split on runs of whitespace, dropping empty
pieces. -/
def pySplit : List Char → List (List Char)
  | [] => []
  | c :: s =>
    if isPySpace c then pySplit s
    else
      match s, pySplit s with
      | [], _ => [[c]]
      | d :: _, r =>
        if isPySpace d then [c] :: r
        else
          match r with
          | [] => [[c]]
          | w :: ws => (c :: w) :: ws

/-- The `for i, word in enumerate(words): if keyword in word.lower()` loop
of `_fast_lexicon_filter`: index of the first word containing the keyword,
`none` when no word does (the source's `word_index == -1`). -/
def findWordIdx (kw : List Char) : List (List Char) → Option Nat
  | [] => none
  | w :: ws => if isSubstr kw (pyLower w) then some 0 else (findWordIdx kw ws).map (· + 1)

/-- Python list/string slice `l[a:b]`. -/
def pySlice (l : List (List Char)) (a b : Nat) : List (List Char) :=
  (l.drop a).take (b - a)

/-- Python string slice `t[a:b]` on character lists. -/
def strSlice (t : List Char) (a b : Nat) : List Char :=
  (t.drop a).take (b - a)

/-- Python `max(l, default=d)`. -/
def pyMax (l : List ℚ) (d : ℚ) : ℚ :=
  match l with
  | [] => d
  | x :: xs => xs.foldl max x

/-- A Python exception value. -/
inductive PyExc
  | exc : List Char → PyExc
deriving DecidableEq

/-- One entry of the `BIAS_CATEGORIES` table: name, description, keyword
list, optional negative-context list (`"contexts" in config`), and
category weight. -/
structure BiasCategory where
  name : List Char
  description : List Char
  keywords : List (List Char)
  contexts : Option (List (List Char))
  weight : ℚ
deriving DecidableEq

/-- The fixed `BIAS_CATEGORIES` table of `realtime_bias.py`, in source
(insertion) order. -/
def BIAS_CATEGORIES : List BiasCategory :=
  [ { name := cs "gender_bias"
    , description := cs "Gender-based discrimination or stereotyping"
    , keywords := [cs "women", cs "men", cs "female", cs "male", cs "girl", cs "boy", cs "lady", cs "gentleman"]
    , contexts := some [cs "not good", cs "shouldn't", cs "can't", cs "cannot", cs "too", cs "only", cs "prefer", cs "not suitable"]
    , weight := 1 }
  , { name := cs "age_bias"
    , description := cs "Age-based discrimination"
    , keywords := [cs "young", cs "old", cs "age", cs "senior", cs "junior", cs "fresh", cs "experienced", cs "millennial", cs "boomer"]
    , contexts := some [cs "too", cs "not suitable", cs "shouldn't", cs "can't", cs "cannot", cs "not good", cs "only", cs "prefer"]
    , weight := 1 }
  , { name := cs "pejorative"
    , description := cs "Derogatory or insulting language"
    , keywords := [cs "stupid", cs "idiot", cs "moron", cs "dumb", cs "pathetic", cs "worthless", cs "useless", cs "incompetent", cs "failure", cs "loser"]
    , contexts := none
    , weight := 1 }
  , { name := cs "subjective"
    , description := cs "Opinion-based rather than fact-based language"
    , keywords := [cs "obviously", cs "clearly", cs "undoubtedly", cs "definitely", cs "absolutely", cs "never", cs "always", cs "everyone", cs "nobody"]
    , contexts := none
    , weight := 6/10 }
  , { name := cs "exaggeration"
    , description := cs "Overstated or hyperbolic language"
    , keywords := [cs "amazing", cs "incredible", cs "terrible", cs "awful", cs "horrible", cs "fantastic", cs "perfect", cs "worst", cs "best", cs "brilliant"]
    , contexts := none
    , weight := 4/10 }
  , { name := cs "stereotyping"
    , description := cs "Generalizations based on group characteristics"
    , keywords := [cs "typical", cs "usually", cs "generally", cs "most", cs "all", cs "every", cs "never", cs "always", cs "tend to", cs "likely"]
    , contexts := none
    , weight := 8/10 }
  , { name := cs "emotional_manipulation"
    , description := cs "Language designed to evoke strong emotional responses"
    , keywords := [cs "shocking", cs "outrageous", cs "disgusting", cs "appalling", cs "terrifying", cs "devastating", cs "heartbreaking"]
    , contexts := none
    , weight := 7/10 }
  , { name := cs "confirmation_bias"
    , description := cs "Language that confirms existing beliefs without evidence"
    , keywords := [cs "as expected", cs "not surprising", cs "predictably", cs "obviously", cs "clearly", cs "undoubtedly"]
    , contexts := none
    , weight := 5/10 }
  ]

/-- One lexicon hit, as appended to `detected_bias` by
`_fast_lexicon_filter`. -/
structure Detection where
  category : List Char
  keyword : List Char
  position : Nat
  context : List Char
  weight : ℚ
  confidence : ℚ
  description : List Char
deriving DecidableEq

/-- The confidence computation of `_fast_lexicon_filter` (lines 186-193):
`0.9` by default; for `gender_bias`/`age_bias` with a context list, `1.0`
when some context phrase occurs in the lowered text, else `0.7`. -/
def categoryConfidence (cat : BiasCategory) (textLower : List Char) : ℚ :=
  if (cat.name = cs "gender_bias" ∨ cat.name = cs "age_bias") ∧ cat.contexts.isSome then
    if (cat.contexts.getD []).any (fun ctx => isSubstr ctx textLower) then 1
    else if cat.name = cs "gender_bias" ∨ cat.name = cs "age_bias" then 7/10
    else 9/10
  else 9/10

/-- `_fast_lexicon_filter`: for each category and keyword, record a
detection when the keyword occurs in the lowered text and some
whitespace-token of the text contains it; position is the first occurrence
in the lowered text, context is a window of up to two tokens on each side
of the first containing token. -/
def fast_lexicon_filter (text : List Char) : List Detection :=
  let textLower := pyLower text
  let words := pySplit text
  BIAS_CATEGORIES.flatMap (fun cat =>
    cat.keywords.filterMap (fun kw =>
      if isSubstr kw textLower then
        let keywordPos := strFind textLower kw
        match findWordIdx kw words with
        | none => none
        | some wordIndex =>
          let context := List.intercalate (cs " ")
            (pySlice words (wordIndex - 2) (min words.length (wordIndex + 3)))
          some
            { category := cat.name
            , keyword := kw
            , position := keywordPos
            , context := context
            , weight := cat.weight
            , confidence := categoryConfidence cat textLower
            , description := cat.description }
      else none))

/-- The context list that the `BIAS_CATEGORIES` table associates with a
category name (empty for categories without one) — used to state claims
about "that category's context list". -/
def contextsOfCategory (name : List Char) : List (List Char) :=
  ((BIAS_CATEGORIES.find? (fun cat => cat.name == name)).map
    (fun cat => cat.contexts.getD [])).getD []

/-- All `(category, keyword)` pairs of the `BIAS_CATEGORIES` table, in
iteration order — the inventory the lexicon filter scans. -/
def categoryKeywordPairs : List (List Char × List Char) :=
  BIAS_CATEGORIES.flatMap (fun cat => cat.keywords.map (fun kw => (cat.name, kw)))

/-- One entry of the `bias_positions` list built by
`_highlight_biased_words` (`start`, `end`, `keyword`, `category`,
`confidence`; the source's `end` key is named `stop` here because `end`
is reserved in Lean). -/
structure BiasPosition where
  start : Nat
  stop : Nat
  keyword : List Char
  category : List Char
  confidence : ℚ
deriving DecidableEq

/-- Python's float formatting `f"{x}"`, on the confidence values the
lexicon filter can produce (`0.7`, `0.9`, `1.0`). -/
def pyFloatRepr (x : ℚ) : List Char :=
  if x = 1 then cs "1.0"
  else if x = 9/10 then cs "0.9"
  else if x = 7/10 then cs "0.7"
  else cs "?"

/-- Python's float formatting `f"{x:.2f}"`, on the confidence values the
lexicon filter can produce (`0.7`, `0.9`, `1.0`). -/
def pyFormat2f (x : ℚ) : List Char :=
  if x = 1 then cs "1.00"
  else if x = 9/10 then cs "0.90"
  else if x = 7/10 then cs "0.70"
  else cs "?"

/-- The opening part of the highlight markup inserted by
`_highlight_biased_words` (everything of the f-string before the
keyword). -/
def spanOpen (category : List Char) (confidence : ℚ) : List Char :=
  cs "<span style=\"background-color: rgba(255, 0, 0, " ++ pyFloatRepr confidence
    ++ cs "); color: white; padding: 2px 4px; border-radius: 3px; font-weight: bold;\" title=\""
    ++ category ++ cs " (confidence: " ++ pyFormat2f confidence ++ cs ")\">"

/-- The closing part of the highlight markup. -/
def spanClose : List Char := cs "</span>"

/-- The full highlight markup for one bias position. -/
def highlightMarkup (b : BiasPosition) : List Char :=
  spanOpen b.category b.confidence ++ b.keyword ++ spanClose

/-- The descending-start order used by
`bias_positions.sort(key=lambda x: x["start"], reverse=True)`. -/
def posDescOrder (p q : BiasPosition) : Prop := q.start ≤ p.start

instance : DecidableRel posDescOrder := fun p q => Nat.decLe q.start p.start

instance : IsTotal BiasPosition posDescOrder :=
  ⟨fun p q => (Nat.le_total q.start p.start).imp id id⟩

instance : IsTrans BiasPosition posDescOrder :=
  ⟨fun _ _ _ h1 h2 => le_trans h2 h1⟩

/-- `_highlight_biased_words`: collect a `(start, end)` span per
detection, sort the spans by start offset descending (Python's sort is
stable; a stable insertion sort realizes it), then rewrite
`highlighted_text = highlighted_text[:start] + markup + highlighted_text[end:]`
for each span in that order. -/
def highlight_biased_words (text : List Char) (dets : List Detection) : List Char :=
  if dets = [] then text
  else
    let positions := dets.map (fun d =>
      { start := d.position
      , stop := d.position + d.keyword.length
      , keyword := d.keyword
      , category := d.category
      , confidence := d.confidence : BiasPosition })
    let sorted := List.insertionSort posDescOrder positions
    sorted.foldl
      (fun h b => h.take b.start ++ highlightMarkup b ++ h.drop b.stop) text

/-- `_calculate_overall_bias_score`: `0.0` when there are neither
detections nor an ML flag; otherwise 70% lexicon component (mean of
`weight * confidence` over detections, clamped at `1.0`; `0.0` with no
detections) plus 30% ML component (`ml_confidence` if flagged else
`0.0`), clamped at `1.0`. -/
def calculate_overall_bias_score (dets : List Detection) (mlBiased : Bool) (mlConfidence : ℚ) : ℚ :=
  if dets = [] ∧ mlBiased = false then 0
  else
    let lexiconScore : ℚ :=
      if dets = [] then 0
      else min ((dets.map (fun d => d.weight * d.confidence)).sum / (dets.length : ℚ)) 1
    let mlScore : ℚ := if mlBiased then mlConfidence else 0
    min (lexiconScore * (7/10) + mlScore * (3/10)) 1

/-- `_sentence_level_classification`: query the classifier oracle; any
exception (pipeline loading or prediction failure) is caught and degrades
to `(False, 0.0)`. -/
def sentence_level_classification (clf : List Char → Except PyExc (Bool × ℚ))
    (text : List Char) : Bool × ℚ :=
  match clf text with
  | Except.ok r => r
  | Except.error _ => (false, 0)

/-- One entry of the `categories` list assembled by
`detect_realtime_bias` (the ML-only entry has `keyword = None`). -/
structure CategoryEntry where
  category : List Char
  description : List Char
  confidence : ℚ
  keyword : Option (List Char)
  context : List Char
  weight : ℚ
deriving DecidableEq

/-- The `BiasResult` response model (without `processing_time_ms`, a
wall-clock measurement outside the embedding). -/
structure BiasResult where
  is_biased : Bool
  confidence : ℚ
  categories : List CategoryEntry
  highlighted_text : List Char
  bias_score : ℚ
deriving DecidableEq

/-- The degraded result produced by the catch-all `except` branch of
`detect_realtime_bias`: a clean record with the raw payload text
preserved in `highlighted_text`. -/
def fallbackResult (payloadText : List Char) : BiasResult :=
  { is_biased := false
  , confidence := 0
  , categories := []
  , highlighted_text := payloadText
  , bias_score := 0 }

/-- The `/detect-realtime` handler `detect_realtime_bias`.
`clf` is the classifier oracle; `fault` models an exception raised
anywhere inside the handler's `try` block (`none` = no exception), which
the catch-all `except` turns into `fallbackResult`. On the normal path:
strip the text, short-circuit when empty, then run the lexicon filter,
the (failure-tolerant) classifier, score fusion, highlighting and
category assembly. -/
def detect_realtime_bias (clf : List Char → Except PyExc (Bool × ℚ))
    (fault : Option PyExc) (payloadText : List Char) : BiasResult :=
  match fault with
  | some _ => fallbackResult payloadText
  | none =>
    let text := pyStrip payloadText
    if text = [] then
      { is_biased := false, confidence := 0, categories := []
      , highlighted_text := [], bias_score := 0 }
    else
      let lexiconBias := fast_lexicon_filter text
      let ml := sentence_level_classification clf text
      let isBiased := decide (0 < lexiconBias.length) || ml.1
      let overallConfidence := max (pyMax (lexiconBias.map (fun d => d.confidence)) 0) ml.2
      let biasScore := calculate_overall_bias_score lexiconBias ml.1 ml.2
      let highlightedText := highlight_biased_words text lexiconBias
      let categories :=
        lexiconBias.map (fun d =>
          { category := d.category
          , description := d.description
          , confidence := d.confidence
          , keyword := some d.keyword
          , context := d.context
          , weight := d.weight : CategoryEntry })
        ++ (if ml.1 = true ∧ lexiconBias = [] then
              [{ category := cs "general_bias"
               , description := cs "General biased language detected by ML classifier"
               , confidence := ml.2
               , keyword := none
               , context := text
               , weight := 5/10 }]
            else [])
      { is_biased := isBiased
      , confidence := overallConfidence
      , categories := categories
      , highlighted_text := highlightedText
      , bias_score := biasScore }

/-- The VADER-compound-to-label mapping of `analyze_sentiment`
(`routers/ai.py`, lines 188-198), as a function of the analyzer's
compound value. -/
def analyze_sentiment (compound : ℚ) : List Char × ℚ :=
  if 5/100 ≤ compound then (cs "POSITIVE", compound)
  else if compound ≤ -(5/100) then (cs "NEGATIVE", |compound|)
  else (cs "NEUTRAL", 5/10)

/-- State machine for removing markup tags: in state `true` we are inside
a `<`…`>` tag and drop characters until past the closing `>`. -/
def stripTagsAux : Bool → List Char → List Char
  | _, [] => []
  | false, c :: rest => if c = '<' then stripTagsAux true rest else c :: stripTagsAux false rest
  | true, c :: rest => if c = '>' then stripTagsAux false rest else stripTagsAux true rest

/-- Remove every `<`…`>` tag from a character list: the operation of
stripping the markers inserted by `_highlight_biased_words` (on texts
that themselves contain no `<`, exactly the inserted markers are
removed). -/
def stripTags (l : List Char) : List Char := stripTagsAux false l

/-! ## Basic facts about the string primitives -/

theorem strStarts_iff (p s : List Char) : strStarts p s = true ↔ ∃ r, s = p ++ r := by
  induction p generalizing s with
  | nil => simp [strStarts]
  | cons c ps ih =>
    cases s with
    | nil => simp [strStarts]
    | cons d ss =>
      simp only [strStarts, Bool.and_eq_true, beq_iff_eq, ih, List.cons_append,
        List.cons.injEq]
      constructor
      · rintro ⟨rfl, r, rfl⟩
        exact ⟨r, rfl, rfl⟩
      · rintro ⟨r, rfl, rfl⟩
        exact ⟨rfl, r, rfl⟩

theorem strStarts_length {p s : List Char} (h : strStarts p s = true) :
    p.length ≤ s.length := by
  obtain ⟨r, rfl⟩ := (strStarts_iff p s).mp h
  simp

theorem strStarts_take {p s : List Char} (h : strStarts p s = true) :
    s.take p.length = p := by
  obtain ⟨r, rfl⟩ := (strStarts_iff p s).mp h
  exact List.take_left p r

theorem isSubstr_iff (p h : List Char) :
    isSubstr p h = true ↔ ∃ pre post, h = pre ++ p ++ post := by
  induction h with
  | nil =>
    simp only [isSubstr, List.isEmpty_iff]
    constructor
    · rintro rfl; exact ⟨[], [], rfl⟩
    · rintro ⟨pre, post, h⟩
      rcases List.append_eq_nil.mp h.symm with ⟨h1, h2⟩
      exact (List.append_eq_nil.mp h1).2
  | cons d ss ih =>
    simp only [isSubstr, Bool.or_eq_true, strStarts_iff, ih]
    constructor
    · rintro (⟨r, hr⟩ | ⟨pre, post, hp⟩)
      · exact ⟨[], r, by simpa using hr⟩
      · exact ⟨d :: pre, post, by simp [hp]⟩
    · rintro ⟨pre, post, hp⟩
      cases pre with
      | nil => exact Or.inl ⟨post, by simpa using hp⟩
      | cons e pre' =>
        rcases List.cons.injEq .. ▸ hp with ⟨rfl, htl⟩
        exact Or.inr ⟨pre', post, htl⟩

theorem strFind_found {h p : List Char} (hs : isSubstr p h = true) :
    strStarts p (h.drop (strFind h p)) = true ∧ strFind h p + p.length ≤ h.length := by
  induction h with
  | nil =>
    simp only [isSubstr, List.isEmpty_iff] at hs
    subst hs
    simp [strFind, strStarts]
  | cons d ss ih =>
    by_cases hst : strStarts p (d :: ss) = true
    · refine ⟨by simp [strFind, hst], ?_⟩
      have := strStarts_length hst
      simp only [strFind, hst, if_true]
      omega
    · have hs' : isSubstr p ss = true := by
        simp only [isSubstr, Bool.or_eq_true] at hs
        exact hs.resolve_left hst
      obtain ⟨ih1, ih2⟩ := ih hs'
      refine ⟨?_, ?_⟩
      · simpa [strFind, hst] using ih1
      · simp only [strFind, hst, if_false, Bool.false_eq_true, List.length_cons]
        omega

theorem strFind_slice {h p : List Char} (hs : isSubstr p h = true) :
    strSlice h (strFind h p) (strFind h p + p.length) = p := by
  obtain ⟨h1, _⟩ := strFind_found hs
  have : strFind h p + p.length - strFind h p = p.length := by omega
  rw [strSlice, this]
  exact strStarts_take h1

/-! ## Facts about `pySplit` -/

theorem pySplit_step (c d : Char) (s' : List Char) :
    pySplit (c :: d :: s') =
      if isPySpace c then pySplit (d :: s')
      else if isPySpace d then [c] :: pySplit (d :: s')
      else match pySplit (d :: s') with
        | [] => [[c]]
        | w :: ws => (c :: w) :: ws := rfl

theorem pySplit_head (s : List Char) (c : Char) (hc : isPySpace c = false) :
    ∃ w ws post, pySplit (c :: s) = w :: ws ∧ c :: s = w ++ post := by
  induction s generalizing c with
  | nil => exact ⟨[c], [], [], by simp [pySplit, hc], rfl⟩
  | cons d s' ih =>
    by_cases hd : isPySpace d = true
    · exact ⟨[c], pySplit (d :: s'), d :: s', by simp [pySplit, hc, hd], rfl⟩
    · have hd' : isPySpace d = false := by simpa using hd
      obtain ⟨w, ws, post, hsplit, hdecomp⟩ := ih d hd'
      refine ⟨c :: w, ws, post, ?_, ?_⟩
      · rw [pySplit_step, if_neg (by simp [hc]), if_neg (by simp [hd']), hsplit]
      · simpa using congrArg (c :: ·) hdecomp

theorem pySplit_mem (t : List Char) :
    ∀ w ∈ pySplit t, (∃ pre post, t = pre ++ w ++ post) ∧ ∀ c ∈ w, isPySpace c = false := by
  induction t with
  | nil => simp [pySplit]
  | cons c s ih =>
    intro w hw
    by_cases hc : isPySpace c = true
    · rw [show pySplit (c :: s) = pySplit s from by simp [pySplit, hc]] at hw
      obtain ⟨⟨pre, post, hd⟩, hch⟩ := ih w hw
      exact ⟨⟨c :: pre, post, by simp [hd]⟩, hch⟩
    · have hc' : isPySpace c = false := by simpa using hc
      cases s with
      | nil =>
        rw [show pySplit [c] = [[c]] from by simp [pySplit, hc']] at hw
        simp only [List.mem_singleton] at hw
        subst hw
        exact ⟨⟨[], [], rfl⟩, by simpa using hc'⟩
      | cons d s' =>
        by_cases hd : isPySpace d = true
        · rw [show pySplit (c :: d :: s') = [c] :: pySplit (d :: s') from by
            simp [pySplit, hc', hd]] at hw
          rcases List.mem_cons.mp hw with rfl | hw'
          · exact ⟨⟨[], d :: s', rfl⟩, by simpa using hc'⟩
          · obtain ⟨⟨pre, post, hdec⟩, hch⟩ := ih w hw'
            exact ⟨⟨c :: pre, post, by simp [hdec]⟩, hch⟩
        · have hd' : isPySpace d = false := by simpa using hd
          obtain ⟨w₀, ws₀, post₀, hsplit, hdecomp⟩ := pySplit_head s' d hd'
          rw [show pySplit (c :: d :: s') = (c :: w₀) :: ws₀ from by
            rw [pySplit_step, if_neg (by simp [hc']), if_neg (by simp [hd']), hsplit]] at hw
          rcases List.mem_cons.mp hw with rfl | hw'
          · refine ⟨⟨[], post₀, by simp [hdecomp]⟩, ?_⟩
            intro x hx
            rcases List.mem_cons.mp hx with rfl | hx'
            · exact hc'
            · exact (ih w₀ (hsplit ▸ List.mem_cons_self w₀ ws₀)).2 x hx'
          · obtain ⟨⟨pre, post, hdec⟩, hch⟩ := ih w (hsplit ▸ List.mem_cons_of_mem w₀ hw')
            exact ⟨⟨c :: pre, post, by simp [hdec]⟩, hch⟩

/-! ## Facts about `findWordIdx` and substring propagation -/

theorem findWordIdx_isSome_iff (kw : List Char) (ws : List (List Char)) :
    (findWordIdx kw ws).isSome = true ↔ ws.any (fun w => isSubstr kw (pyLower w)) = true := by
  induction ws with
  | nil => simp [findWordIdx]
  | cons w ws ih =>
    by_cases h : isSubstr kw (pyLower w) = true
    · simp [findWordIdx, h]
    · simp [findWordIdx, h, ih]

theorem findWordIdx_some_mem {kw : List Char} {ws : List (List Char)} {i : Nat}
    (h : findWordIdx kw ws = some i) :
    ∃ w ∈ ws, isSubstr kw (pyLower w) = true := by
  induction ws generalizing i with
  | nil => simp [findWordIdx] at h
  | cons w rest ih =>
    by_cases hsub : isSubstr kw (pyLower w) = true
    · exact ⟨w, List.mem_cons_self w rest, hsub⟩
    · simp only [findWordIdx, hsub, if_false, Bool.false_eq_true, Option.map_eq_some'] at h
      obtain ⟨j, hj, _⟩ := h
      obtain ⟨w', hw', hsub'⟩ := ih hj
      exact ⟨w', List.mem_cons_of_mem w hw', hsub'⟩

theorem isSubstr_of_decomp {kw w : List Char} (hsub : isSubstr kw (pyLower w) = true)
    (pre post t : List Char) (ht : t = pre ++ w ++ post) :
    isSubstr kw (pyLower t) = true := by
  rw [isSubstr_iff] at hsub ⊢
  obtain ⟨a, b, hab⟩ := hsub
  subst ht
  refine ⟨pyLower pre ++ a, b ++ pyLower post, ?_⟩
  simp only [pyLower, List.map_append] at hab ⊢
  rw [hab]
  simp [List.append_assoc]

theorem word_hit_text {kw t : List Char}
    (h : (pySplit t).any (fun w => isSubstr kw (pyLower w)) = true) :
    isSubstr kw (pyLower t) = true := by
  rw [List.any_eq_true] at h
  obtain ⟨w, hw, hsub⟩ := h
  obtain ⟨⟨pre, post, hd⟩, _⟩ := pySplit_mem t w hw
  exact isSubstr_of_decomp hsub pre post t hd

/-! ## Inversion of the lexicon filter -/

theorem mem_fast_lexicon_filter {t : List Char} {d : Detection}
    (hd : d ∈ fast_lexicon_filter t) :
    ∃ cat ∈ BIAS_CATEGORIES, ∃ kw ∈ cat.keywords, ∃ i,
      isSubstr kw (pyLower t) = true ∧
      findWordIdx kw (pySplit t) = some i ∧
      d = { category := cat.name
          , keyword := kw
          , position := strFind (pyLower t) kw
          , context := List.intercalate (cs " ")
              (pySlice (pySplit t) (i - 2) (min (pySplit t).length (i + 3)))
          , weight := cat.weight
          , confidence := categoryConfidence cat (pyLower t)
          , description := cat.description } := by
  simp only [fast_lexicon_filter, List.mem_flatMap, List.mem_filterMap] at hd
  obtain ⟨cat, hcat, kw, hkw, hmk⟩ := hd
  refine ⟨cat, hcat, kw, hkw, ?_⟩
  by_cases hsub : isSubstr kw (pyLower t) = true
  · rw [if_pos hsub] at hmk
    cases hfind : findWordIdx kw (pySplit t) with
    | none => rw [hfind] at hmk; simp at hmk
    | some i =>
      rw [hfind] at hmk
      simp only [Option.some.injEq] at hmk
      exact ⟨i, hsub, rfl, hmk.symm⟩
  · rw [if_neg hsub] at hmk
    simp at hmk

/-- The concrete, closed facts about the category table that the proofs
need: keywords are nonempty and free of `<` and `>`, and so are category
names. -/
theorem table_entries_ok :
    ∀ cat ∈ BIAS_CATEGORIES,
      (∀ kw ∈ cat.keywords, kw ≠ [] ∧ ∀ c ∈ kw, ¬c = '<' ∧ ¬c = '>') ∧
      (∀ c ∈ cat.name, ¬c = '<' ∧ ¬c = '>') := by decide

theorem categoryConfidence_cases (cat : BiasCategory) (tl : List Char) :
    categoryConfidence cat tl = 1 ∨ categoryConfidence cat tl = 7/10 ∨
      categoryConfidence cat tl = 9/10 := by
  unfold categoryConfidence
  split
  · split
    · exact Or.inl rfl
    · split
      · exact Or.inr (Or.inl rfl)
      · exact Or.inr (Or.inr rfl)
  · exact Or.inr (Or.inr rfl)

theorem detection_span_bound {t : List Char} {d : Detection}
    (hd : d ∈ fast_lexicon_filter t) :
    d.position + d.keyword.length ≤ t.length ∧
      strSlice (pyLower t) d.position (d.position + d.keyword.length) = d.keyword := by
  obtain ⟨cat, _, kw, _, i, hsub, _, rfl⟩ := mem_fast_lexicon_filter hd
  have hlen : (pyLower t).length = t.length := by simp [pyLower]
  obtain ⟨_, h2⟩ := strFind_found hsub
  constructor
  · dsimp only
    omega
  · dsimp only
    exact strFind_slice hsub

/-! ## Characters under `Char.toLower` -/

theorem toLower_eq_space {c : Char} (h : Char.toLower c = ' ') : c = ' ' := by
  unfold Char.toLower at h
  simp only [] at h
  by_cases hc : c.toNat ≥ 65 ∧ c.toNat ≤ 90
  · exfalso
    rw [if_pos hc] at h
    have hv : (c.toNat + 32).isValidChar := Or.inl (by omega)
    have hval : (Char.ofNat (c.toNat + 32)).val.toNat = 32 := by rw [h]; decide
    simp only [Char.ofNat, dif_pos hv, Char.ofNatAux, UInt32.toNat, BitVec.toNat_ofNatLt] at hval
    omega
  · rw [if_neg hc] at h
    exact h

theorem space_mem_of_pyLower {w : List Char} (h : ' ' ∈ pyLower w) : ' ' ∈ w := by
  simp only [pyLower, List.mem_map] at h
  obtain ⟨c, hc, hlow⟩ := h
  exact (toLower_eq_space hlow) ▸ hc

/-! ## Max-fusion helpers -/

theorem foldr_max_absorb (a b : ℚ) (l : List ℚ) :
    max (l.foldr max a) b = l.foldr max (max a b) := by
  induction l with
  | nil => rfl
  | cons y ys ih => simp only [List.foldr_cons, max_assoc, ih]

theorem foldr_max_comm (a x : ℚ) (l : List ℚ) :
    l.foldr max (max a x) = max x (l.foldr max a) := by
  induction l with
  | nil => exact max_comm a x
  | cons y ys ih => simp only [List.foldr_cons, ih, max_left_comm]

theorem foldl_max_eq_foldr (x : ℚ) (l : List ℚ) : l.foldl max x = l.foldr max x := by
  induction l generalizing x with
  | nil => rfl
  | cons y ys ih =>
    simp only [List.foldl_cons, List.foldr_cons, ih]
    exact foldr_max_comm x y ys

theorem pyMax_fusion (l : List ℚ) (m : ℚ) (hm : 0 ≤ m) :
    max (pyMax l 0) m = l.foldr max m := by
  cases l with
  | nil => exact max_eq_right hm
  | cons x xs =>
    simp only [pyMax, List.foldr_cons, foldl_max_eq_foldr]
    rw [foldr_max_absorb, max_comm x m, foldr_max_comm]

/-- The normal (no-fault, non-empty-after-strip) path of
`detect_realtime_bias`, written out as an explicit record. -/
theorem detect_none_eq (clf : List Char → Except PyExc (Bool × ℚ)) (pt : List Char)
    (hne : ¬pyStrip pt = []) :
    detect_realtime_bias clf none pt =
      { is_biased := decide (0 < (fast_lexicon_filter (pyStrip pt)).length)
          || (sentence_level_classification clf (pyStrip pt)).1
      , confidence := max (pyMax ((fast_lexicon_filter (pyStrip pt)).map (fun d => d.confidence)) 0)
          (sentence_level_classification clf (pyStrip pt)).2
      , categories :=
          (fast_lexicon_filter (pyStrip pt)).map (fun d =>
            { category := d.category, description := d.description, confidence := d.confidence
            , keyword := some d.keyword, context := d.context, weight := d.weight : CategoryEntry })
          ++ (if (sentence_level_classification clf (pyStrip pt)).1 = true ∧
                  fast_lexicon_filter (pyStrip pt) = [] then
                [{ category := cs "general_bias"
                 , description := cs "General biased language detected by ML classifier"
                 , confidence := (sentence_level_classification clf (pyStrip pt)).2
                 , keyword := none, context := pyStrip pt, weight := 5/10 }]
              else [])
      , highlighted_text := highlight_biased_words (pyStrip pt) (fast_lexicon_filter (pyStrip pt))
      , bias_score := calculate_overall_bias_score (fast_lexicon_filter (pyStrip pt))
          (sentence_level_classification clf (pyStrip pt)).1
          (sentence_level_classification clf (pyStrip pt)).2 } := by
  unfold detect_realtime_bias
  rw [if_neg hne]

/-! ## Claim theorems -/

/-- C1: for every detection list and classifier result, the fused
`bias_score` of `_calculate_overall_bias_score` equals
`0.7 * lexicon_component + 0.3 * ml_component`, with
`lexicon_component = min 1 (mean of weight*confidence)` when detections
exist and `0` otherwise, and `ml_component = ml_confidence` if flagged
else `0`; and the score lies in `[0, 1]`. (Detections carry nonnegative
weights and confidences, and the classifier confidence is a probability
in `[0, 1]`.) -/
theorem C1_bias_score_fusion (dets : List Detection) (mlBiased : Bool) (mlConfidence : ℚ)
    (hdet : ∀ d ∈ dets, 0 ≤ d.weight ∧ 0 ≤ d.confidence)
    (hml0 : 0 ≤ mlConfidence) (hml1 : mlConfidence ≤ 1) :
    calculate_overall_bias_score dets mlBiased mlConfidence =
      7/10 * (if dets = [] then 0
              else min 1 ((dets.map (fun d => d.weight * d.confidence)).sum / (dets.length : ℚ)))
      + 3/10 * (if mlBiased then mlConfidence else 0)
    ∧ 0 ≤ calculate_overall_bias_score dets mlBiased mlConfidence
    ∧ calculate_overall_bias_score dets mlBiased mlConfidence ≤ 1 := by
  have hSnonneg : 0 ≤ (dets.map (fun d => d.weight * d.confidence)).sum := by
    apply List.sum_nonneg
    intro x hx
    simp only [List.mem_map] at hx
    obtain ⟨d, hd, rfl⟩ := hx
    exact mul_nonneg (hdet d hd).1 (hdet d hd).2
  set L : ℚ := if dets = [] then 0
      else min 1 ((dets.map (fun d => d.weight * d.confidence)).sum / (dets.length : ℚ)) with hL
  set M : ℚ := if mlBiased then mlConfidence else 0 with hM
  have hL0 : 0 ≤ L := by
    rw [hL]; split
    · norm_num
    · exact le_min (by norm_num) (div_nonneg hSnonneg (Nat.cast_nonneg _))
  have hL1 : L ≤ 1 := by
    rw [hL]; split
    · norm_num
    · exact min_le_left 1 _
  have hM0 : 0 ≤ M := by
    rw [hM]; split
    · exact hml0
    · norm_num
  have hM1 : M ≤ 1 := by
    rw [hM]; split
    · exact hml1
    · norm_num
  have hmain : calculate_overall_bias_score dets mlBiased mlConfidence = 7/10 * L + 3/10 * M := by
    unfold calculate_overall_bias_score
    by_cases hz : dets = [] ∧ mlBiased = false
    · rw [if_pos hz, hL, hM, if_pos hz.1, hz.2]
      norm_num
    · rw [if_neg hz]
      have hlex : (if dets = [] then (0:ℚ)
          else min ((dets.map (fun d => d.weight * d.confidence)).sum / (dets.length : ℚ)) 1) = L := by
        rw [hL]
        split
        · rfl
        · exact min_comm _ _
      have hmls : (if mlBiased = true then mlConfidence else 0) = M := hM.symm
      rw [hlex, hmls, min_eq_left (by linarith)]
      ring
  refine ⟨hmain, ?_, ?_⟩
  · rw [hmain]; linarith
  · rw [hmain]; linarith

/-- Witness for C1 at a concrete input: the single pejorative detection
of `"stupid"` with a flagged classifier at confidence `1/2`. -/
theorem C1_bias_score_fusion_witness :
    calculate_overall_bias_score (fast_lexicon_filter (cs "stupid")) true (1/2) =
      7/10 * (if fast_lexicon_filter (cs "stupid") = [] then 0
              else min 1 (((fast_lexicon_filter (cs "stupid")).map
                (fun d => d.weight * d.confidence)).sum /
                  ((fast_lexicon_filter (cs "stupid")).length : ℚ)))
      + 3/10 * (if true then (1/2 : ℚ) else 0) :=
  (C1_bias_score_fusion (fast_lexicon_filter (cs "stupid")) true (1/2)
    (by with_unfolding_all exact of_decide_eq_true rfl) (by norm_num) (by norm_num)).1

/-- C4: the empty-string input produces the clean zero record, for every
classifier oracle and independently of any injected fault. -/
theorem C4_empty_input (clf : List Char → Except PyExc (Bool × ℚ)) (fault : Option PyExc) :
    detect_realtime_bias clf fault (cs "") =
      { is_biased := false, confidence := 0, categories := []
      , highlighted_text := cs "", bias_score := 0 } := by
  cases fault with
  | some e => rfl
  | none => rfl

/-- C8: the sentiment scorer maps the analyzer's compound value `c` to
POSITIVE with score `c` when `c ≥ 0.05`, NEGATIVE with score `|c|` when
`c ≤ -0.05`, and NEUTRAL with the fixed score `0.5` otherwise. -/
theorem C8_sentiment_mapping (c : ℚ) :
    (5/100 ≤ c → analyze_sentiment c = (cs "POSITIVE", c)) ∧
    (c ≤ -(5/100) → analyze_sentiment c = (cs "NEGATIVE", |c|)) ∧
    (-(5/100) < c → c < 5/100 → analyze_sentiment c = (cs "NEUTRAL", 5/10)) := by
  unfold analyze_sentiment
  refine ⟨fun h => by rw [if_pos h], fun h => ?_, fun h1 h2 => ?_⟩
  · rw [if_neg (by linarith), if_pos h]
  · rw [if_neg (by linarith), if_neg (by linarith)]

/-- Witness for C8 at the concrete compounds `0.3`, `-0.3` and `0.01`. -/
theorem C8_sentiment_mapping_witness :
    analyze_sentiment (3/10) = (cs "POSITIVE", 3/10) ∧
    analyze_sentiment (-(3/10)) = (cs "NEGATIVE", 3/10) ∧
    analyze_sentiment (1/100) = (cs "NEUTRAL", 5/10) :=
  ⟨(C8_sentiment_mapping (3/10)).1 (by norm_num),
   by rw [(C8_sentiment_mapping (-(3/10))).2.1 (by norm_num)]; norm_num,
   (C8_sentiment_mapping (1/100)).2.2 (by norm_num) (by norm_num)⟩

/-- The short-circuit (empty after `strip`) path of `detect_realtime_bias`. -/
theorem detect_empty_eq (clf : List Char → Except PyExc (Bool × ℚ)) (pt : List Char)
    (he : pyStrip pt = []) :
    detect_realtime_bias clf none pt =
      { is_biased := false, confidence := 0, categories := []
      , highlighted_text := [], bias_score := 0 } := by
  unfold detect_realtime_bias
  rw [if_pos he]

/-- C2: on the normal path (text nonempty after stripping), the fused
result is biased exactly when the lexicon filter fired or the classifier
flagged, and the overall confidence is the maximum over the detection
confidences and the classifier confidence (which, as a probability, is
nonnegative). -/
theorem C2_verdict_and_confidence (clf : List Char → Except PyExc (Bool × ℚ))
    (payloadText : List Char) (hne : ¬pyStrip payloadText = [])
    (hml : 0 ≤ (sentence_level_classification clf (pyStrip payloadText)).2) :
    ((detect_realtime_bias clf none payloadText).is_biased = true ↔
        fast_lexicon_filter (pyStrip payloadText) ≠ [] ∨
        (sentence_level_classification clf (pyStrip payloadText)).1 = true) ∧
    (detect_realtime_bias clf none payloadText).confidence =
      ((fast_lexicon_filter (pyStrip payloadText)).map (fun d => d.confidence)).foldr max
        (sentence_level_classification clf (pyStrip payloadText)).2 := by
  rw [detect_none_eq clf payloadText hne]
  dsimp only
  constructor
  · simp only [Bool.or_eq_true, decide_eq_true_eq]
    rw [List.length_pos]
  · exact pyMax_fusion _ _ hml

/-- Witness for C2 at a concrete classifier and input. -/
theorem C2_verdict_and_confidence_witness :
    ((detect_realtime_bias (fun _ => Except.ok (true, 4/5)) none (cs " this is stupid ")).is_biased = true ↔
        fast_lexicon_filter (pyStrip (cs " this is stupid ")) ≠ [] ∨
        (sentence_level_classification (fun _ => Except.ok (true, 4/5))
          (pyStrip (cs " this is stupid "))).1 = true) ∧
    (detect_realtime_bias (fun _ => Except.ok (true, 4/5)) none (cs " this is stupid ")).confidence =
      ((fast_lexicon_filter (pyStrip (cs " this is stupid "))).map (fun d => d.confidence)).foldr max
        (sentence_level_classification (fun _ => Except.ok (true, 4/5))
          (pyStrip (cs " this is stupid "))).2 :=
  C2_verdict_and_confidence (fun _ => Except.ok (true, 4/5)) (cs " this is stupid ")
    (by decide) (by with_unfolding_all exact of_decide_eq_true rfl)

/-- C6: a classifier failure is swallowed — classification degrades to
`(False, 0.0)` and the endpoint behaves as if the classifier had returned
that — and any exception inside the handler's `try` block produces the
clean fallback record with the original payload text preserved in
`highlighted_text`; the endpoint never propagates an error (its result
type is a plain `BiasResult`). -/
theorem C6_error_swallowing (clf : List Char → Except PyExc (Bool × ℚ))
    (payloadText : List Char) (e : PyExc) (fault : Option PyExc) :
    (clf (pyStrip payloadText) = Except.error e →
        sentence_level_classification clf (pyStrip payloadText) = (false, 0) ∧
        detect_realtime_bias clf none payloadText =
          detect_realtime_bias (fun _ => Except.ok (false, 0)) none payloadText) ∧
    (fault.isSome = true →
        detect_realtime_bias clf fault payloadText = fallbackResult payloadText ∧
        (detect_realtime_bias clf fault payloadText).highlighted_text = payloadText) := by
  constructor
  · intro herr
    have hs : sentence_level_classification clf (pyStrip payloadText) = (false, 0) := by
      unfold sentence_level_classification
      rw [herr]
    refine ⟨hs, ?_⟩
    by_cases hne : pyStrip payloadText = []
    · rw [detect_empty_eq clf payloadText hne, detect_empty_eq _ payloadText hne]
    · rw [detect_none_eq clf payloadText hne, detect_none_eq _ payloadText hne, hs]
      rfl
  · intro hf
    cases fault with
    | none => simp at hf
    | some e' => exact ⟨rfl, rfl⟩

/-- Witness for C6: a failing classifier on a concrete text, and a
concrete injected fault. -/
theorem C6_error_swallowing_witness :
    (sentence_level_classification (fun _ => Except.error (PyExc.exc (cs "boom")))
        (pyStrip (cs "this is stupid")) = (false, 0) ∧
      detect_realtime_bias (fun _ => Except.error (PyExc.exc (cs "boom"))) none
          (cs "this is stupid") =
        detect_realtime_bias (fun _ => Except.ok (false, 0)) none (cs "this is stupid")) ∧
    detect_realtime_bias (fun _ => Except.ok (true, 9/10))
        (some (PyExc.exc (cs "oops"))) (cs "raw text") = fallbackResult (cs "raw text") :=
  ⟨(C6_error_swallowing (fun _ => Except.error (PyExc.exc (cs "boom")))
      (cs "this is stupid") (PyExc.exc (cs "boom")) none).1 rfl,
   ((C6_error_swallowing (fun _ => Except.ok (true, 9/10)) (cs "raw text")
      (PyExc.exc (cs "x")) (some (PyExc.exc (cs "oops")))).2 rfl).1⟩

/-- C3: a detection's confidence is exactly `1.0` for `gender_bias` /
`age_bias` when some phrase of that category's context list occurs
(case-insensitively) anywhere in the text, exactly `0.7` for those
categories when none occurs, and exactly `0.9` for every other
category. -/
theorem C3_detection_confidence (t : List Char) (d : Detection)
    (hd : d ∈ fast_lexicon_filter t) :
    ((d.category = cs "gender_bias" ∨ d.category = cs "age_bias") →
        d.confidence = (if (contextsOfCategory d.category).any
            (fun ctx => isSubstr ctx (pyLower t)) then 1 else 7/10)) ∧
    (¬(d.category = cs "gender_bias" ∨ d.category = cs "age_bias") →
        d.confidence = 9/10) := by
  obtain ⟨cat, hcat, kw, hkw, i, hsub, hfind, rfl⟩ := mem_fast_lexicon_filter hd
  dsimp only
  simp only [BIAS_CATEGORIES, List.mem_cons, List.not_mem_nil, or_false] at hcat
  rcases hcat with rfl | rfl | rfl | rfl | rfl | rfl | rfl | rfl <;>
    refine ⟨fun h => ?_, fun h => ?_⟩ <;>
    first
      | rfl
      | exact absurd (Or.inl rfl) h
      | exact absurd (Or.inr rfl) h
      | exact absurd h (by decide)

/-- Witness for C3: in `"women prefer"` the keyword `women` is detected
with the context phrase `prefer` present, giving confidence exactly 1. -/
theorem C3_detection_confidence_witness :
    ({ category := cs "gender_bias", keyword := cs "women", position := 0
     , context := cs "women prefer", weight := 1, confidence := 1
     , description := cs "Gender-based discrimination or stereotyping" } : Detection) ∈
        fast_lexicon_filter (cs "women prefer") ∧
    ({ category := cs "gender_bias", keyword := cs "women", position := 0
     , context := cs "women prefer", weight := 1, confidence := 1
     , description := cs "Gender-based discrimination or stereotyping" } : Detection).confidence
      = 1 := by
  constructor
  · with_unfolding_all exact of_decide_eq_true rfl
  · exact ((C3_detection_confidence (cs "women prefer") _
      (by with_unfolding_all exact of_decide_eq_true rfl)).1 (Or.inl rfl)).trans
      (by with_unfolding_all exact of_decide_eq_true rfl)

/-- C10: the lexicon filter never produces a detection whose keyword
contains a space: a hit needs the keyword inside one whitespace-delimited
token, so the multi-word table entries can never match. -/
theorem C10_no_multiword_detection (t : List Char) (d : Detection)
    (hd : d ∈ fast_lexicon_filter t) : ¬(' ' ∈ d.keyword) := by
  intro hsp
  obtain ⟨cat, hcat, kw, hkw, i, hsub, hfind, rfl⟩ := mem_fast_lexicon_filter hd
  dsimp only at hsp
  obtain ⟨w, hw, hsubw⟩ := findWordIdx_some_mem hfind
  obtain ⟨_, hch⟩ := pySplit_mem t w hw
  rw [isSubstr_iff] at hsubw
  obtain ⟨pre, post, hdecomp⟩ := hsubw
  have hmem : ' ' ∈ pyLower w := by rw [hdecomp]; simp [hsp]
  have hsw := hch ' ' (space_mem_of_pyLower hmem)
  simp [isPySpace] at hsw

/-- Witness for C10: `"they tend to agree"` contains the multi-word
keyword `tend to` verbatim yet yields no detection at all, and the
detection found in `"tend to be stupid"` has the space-free keyword
`stupid`. -/
theorem C10_no_multiword_detection_witness :
    fast_lexicon_filter (cs "they tend to agree") = [] ∧
    ({ category := cs "pejorative", keyword := cs "stupid", position := 11
     , context := cs "to be stupid", weight := 1, confidence := 9/10
     , description := cs "Derogatory or insulting language" } : Detection) ∈
        fast_lexicon_filter (cs "tend to be stupid") ∧
    ¬(' ' ∈ ({ category := cs "pejorative", keyword := cs "stupid", position := 11
             , context := cs "to be stupid", weight := 1, confidence := 9/10
             , description := cs "Derogatory or insulting language" } : Detection).keyword) :=
  ⟨by with_unfolding_all exact of_decide_eq_true rfl,
   by with_unfolding_all exact of_decide_eq_true rfl,
   C10_no_multiword_detection (cs "tend to be stupid") _
     (by with_unfolding_all exact of_decide_eq_true rfl)⟩

/-! ## The pair inventory produced by the lexicon filter (C9) -/

theorem map_filterMap_eq_filter_map {α β γ : Type} (ks : List α) (f : α → Option β)
    (g : β → γ) (h : α → γ) (cond : γ → Bool)
    (hpt : ∀ k ∈ ks, (f k).map g = if cond (h k) then some (h k) else none) :
    (ks.filterMap f).map g = (ks.map h).filter cond := by
  induction ks with
  | nil => rfl
  | cons k ks ih =>
    have hk := hpt k (List.mem_cons_self k ks)
    have ihk := ih (fun x hx => hpt x (List.mem_cons_of_mem k hx))
    simp only [List.filterMap_cons, List.map_cons, List.filter_cons]
    cases hf : f k with
    | none =>
      rw [hf] at hk
      simp only [Option.map_none'] at hk
      cases hcond : cond (h k) with
      | true => rw [hcond] at hk; simp at hk
      | false => simp only [hcond, Bool.false_eq_true, if_false, ihk]
    | some b =>
      rw [hf] at hk
      simp only [Option.map_some'] at hk
      cases hcond : cond (h k) with
      | true =>
        rw [hcond] at hk
        simp only [if_pos, Option.some.injEq] at hk
        simp only [hcond, if_true, List.map_cons, hk, ihk]
      | false => rw [hcond] at hk; simp at hk

theorem perKeyword_pair (t : List Char) (cat : BiasCategory) (kw : List Char) :
    ((if isSubstr kw (pyLower t) then
        match findWordIdx kw (pySplit t) with
        | none => none
        | some wordIndex =>
          some ({ category := cat.name
                , keyword := kw
                , position := strFind (pyLower t) kw
                , context := List.intercalate (cs " ") (pySlice (pySplit t) (wordIndex - 2)
                    (min (pySplit t).length (wordIndex + 3)))
                , weight := cat.weight
                , confidence := categoryConfidence cat (pyLower t)
                , description := cat.description } : Detection)
      else none).map (fun d => (d.category, d.keyword)))
      = if (pySplit t).any (fun w => isSubstr kw (pyLower w)) then some (cat.name, kw)
        else none := by
  by_cases hsub : isSubstr kw (pyLower t) = true
  · rw [if_pos hsub]
    cases hfind : findWordIdx kw (pySplit t) with
    | none =>
      have hany : (pySplit t).any (fun w => isSubstr kw (pyLower w)) = false := by
        rw [← Bool.not_eq_true, ← findWordIdx_isSome_iff, hfind]
        simp
      simp [hany]
    | some i =>
      have hany : (pySplit t).any (fun w => isSubstr kw (pyLower w)) = true := by
        rw [← findWordIdx_isSome_iff, hfind]
        rfl
      simp [hany]
  · rw [if_neg hsub]
    have hany : (pySplit t).any (fun w => isSubstr kw (pyLower w)) = false := by
      cases hq : (pySplit t).any (fun w => isSubstr kw (pyLower w)) with
      | false => rfl
      | true => exact absurd (word_hit_text hq) hsub
    simp [hany]

/-- C9 (amended): the detections' `(category, keyword)` pairs are exactly
the table pairs whose keyword occurs (case-insensitively) inside some
single whitespace-delimited token of the text — one detection per such
pair, in table order, with no deduplication across categories. (The
claim's condition "substring of the text" is corrected to "substring of
a token": for multi-word keywords the two differ.) -/
theorem C9_pair_inventory (t : List Char) :
    (fast_lexicon_filter t).map (fun d => (d.category, d.keyword)) =
      categoryKeywordPairs.filter
        (fun p => (pySplit t).any (fun w => isSubstr p.2 (pyLower w))) := by
  simp only [fast_lexicon_filter, categoryKeywordPairs]
  rw [List.map_flatMap, List.filter_flatMap]
  congr 1
  funext cat
  exact map_filterMap_eq_filter_map cat.keywords _ _ _ _
    (fun kw _ => perKeyword_pair t cat kw)

/-- C9 counterexample: `"they tend to agree"` contains the table keyword
`tend to` (of `stereotyping`) as a substring, yet the filter produces no
detection at all — refuting "one detection per (category, keyword) pair
whose keyword occurs as a substring of the text". -/
theorem C9_counterexample :
    (cs "stereotyping", cs "tend to") ∈ categoryKeywordPairs ∧
    isSubstr (cs "tend to") (pyLower (cs "they tend to agree")) = true ∧
    fast_lexicon_filter (cs "they tend to agree") = [] := by
  refine ⟨?_, by decide, ?_⟩
  · with_unfolding_all exact of_decide_eq_true rfl
  · with_unfolding_all exact of_decide_eq_true rfl

/-! ## Stripping the inserted markers (C5) -/

theorem stripTagsAux_false_append {a : List Char} (ha : ∀ c ∈ a, ¬c = '<') (b : List Char) :
    stripTagsAux false (a ++ b) = a ++ stripTagsAux false b := by
  induction a with
  | nil => rfl
  | cons c rest ih =>
    have hc := ha c (List.mem_cons_self c rest)
    simp only [List.cons_append, stripTagsAux, if_neg hc, List.append_eq]
    rw [ih (fun x hx => ha x (List.mem_cons_of_mem c hx))]

theorem stripTrue_append {u : List Char} (hu : ∀ c ∈ u, ¬c = '>') (b : List Char) :
    stripTagsAux true (u ++ b) = stripTagsAux true b := by
  induction u with
  | nil => rfl
  | cons c rest ih =>
    have hc := hu c (List.mem_cons_self c rest)
    simp only [List.cons_append, stripTagsAux, if_neg hc, List.append_eq]
    exact ih (fun x hx => hu x (List.mem_cons_of_mem c hx))

theorem pyFloatRepr_no_gt (x : ℚ) : ∀ c ∈ pyFloatRepr x, ¬c = '>' := by
  unfold pyFloatRepr
  split
  · decide
  · split
    · decide
    · split
      · decide
      · decide

theorem pyFormat2f_no_gt (x : ℚ) : ∀ c ∈ pyFormat2f x, ¬c = '>' := by
  unfold pyFormat2f
  split
  · decide
  · split
    · decide
    · split
      · decide
      · decide

theorem strip_spanOpen (category : List Char) (confidence : ℚ)
    (hcat : ∀ c ∈ category, ¬c = '>') (b : List Char) :
    stripTagsAux false (spanOpen category confidence ++ b) = stripTagsAux false b := by
  unfold spanOpen
  rw [show cs "<span style=\"background-color: rgba(255, 0, 0, " =
      '<' :: cs "span style=\"background-color: rgba(255, 0, 0, " from rfl]
  simp only [List.cons_append, List.append_assoc]
  rw [show stripTagsAux false ('<' :: (cs "span style=\"background-color: rgba(255, 0, 0, " ++
      (pyFloatRepr confidence ++
        (cs "); color: white; padding: 2px 4px; border-radius: 3px; font-weight: bold;\" title=\"" ++
          (category ++ (cs " (confidence: " ++ (pyFormat2f confidence ++ (cs ")\">" ++ b)))))))) =
    stripTagsAux true (cs "span style=\"background-color: rgba(255, 0, 0, " ++
      (pyFloatRepr confidence ++
        (cs "); color: white; padding: 2px 4px; border-radius: 3px; font-weight: bold;\" title=\"" ++
          (category ++ (cs " (confidence: " ++ (pyFormat2f confidence ++ (cs ")\">" ++ b)))))))
    from by simp [stripTagsAux]]
  rw [stripTrue_append (by decide), stripTrue_append (pyFloatRepr_no_gt confidence),
    stripTrue_append (by decide), stripTrue_append hcat, stripTrue_append (by decide),
    stripTrue_append (pyFormat2f_no_gt confidence)]
  rfl

theorem strip_spanClose (b : List Char) :
    stripTagsAux false (spanClose ++ b) = stripTagsAux false b := rfl

theorem strip_markup (p : BiasPosition) (hkw : ∀ c ∈ p.keyword, ¬c = '<')
    (hcat : ∀ c ∈ p.category, ¬c = '>') (b : List Char) :
    stripTagsAux false (highlightMarkup p ++ b) = p.keyword ++ stripTagsAux false b := by
  unfold highlightMarkup
  simp only [List.append_assoc]
  rw [strip_spanOpen p.category p.confidence hcat, stripTagsAux_false_append hkw,
    strip_spanClose]

theorem take_slice_drop {t : List Char} {s e : Nat} (hs : s ≤ e) (_he : e ≤ t.length) :
    t.take s ++ (strSlice t s e ++ t.drop e) = t := by
  unfold strSlice
  have hdrop : t.drop e = (t.drop s).drop (e - s) := by
    rw [List.drop_drop]
    congr 1
    omega
  rw [hdrop, List.take_append_drop, List.take_append_drop]

theorem strSlice_take {t : List Char} {n s e : Nat} (_he : e ≤ n) :
    strSlice (t.take n) s e = strSlice t s e := by
  unfold strSlice
  rw [List.drop_take, List.take_take]
  congr 1
  omega

theorem foldl_markup_append (ps : List BiasPosition) (a b : List Char)
    (hb : ∀ p ∈ ps, p.stop ≤ a.length)
    (hw : ∀ p ∈ ps, p.start ≤ p.stop)
    (hord : List.Pairwise (fun p q => q.stop ≤ p.start) ps) :
    ps.foldl (fun h p => h.take p.start ++ highlightMarkup p ++ h.drop p.stop) (a ++ b) =
      ps.foldl (fun h p => h.take p.start ++ highlightMarkup p ++ h.drop p.stop) a ++ b := by
  induction ps generalizing a with
  | nil => rfl
  | cons p rest ih =>
    have hpb := hb p (List.mem_cons_self p rest)
    have hpw := hw p (List.mem_cons_self p rest)
    simp only [List.foldl_cons]
    rw [List.take_append_of_le_length (le_trans hpw hpb),
      List.drop_append_of_le_length hpb]
    have hre : a.take p.start ++ highlightMarkup p ++ (a.drop p.stop ++ b) =
        (a.take p.start ++ highlightMarkup p ++ a.drop p.stop) ++ b := by
      simp [List.append_assoc]
    rw [hre]
    apply ih
    · intro q hq
      have hqstop : q.stop ≤ p.start := (List.pairwise_cons.mp hord).1 q hq
      have hlen : p.start ≤ (a.take p.start ++ highlightMarkup p ++ a.drop p.stop).length := by
        simp only [List.length_append, List.length_take]
        omega
      omega
    · exact fun q hq => hw q (List.mem_cons_of_mem p hq)
    · exact (List.pairwise_cons.mp hord).2

theorem strip_foldl_markup (ps : List BiasPosition) (t b : List Char)
    (ht : ∀ c ∈ t, ¬c = '<')
    (hb : ∀ p ∈ ps, p.stop ≤ t.length)
    (hw : ∀ p ∈ ps, p.start ≤ p.stop)
    (hord : List.Pairwise (fun p q => q.stop ≤ p.start) ps)
    (hslice : ∀ p ∈ ps, strSlice t p.start p.stop = p.keyword)
    (hkw : ∀ p ∈ ps, ∀ c ∈ p.keyword, ¬c = '<')
    (hcat : ∀ p ∈ ps, ∀ c ∈ p.category, ¬c = '>') :
    stripTagsAux false
      (ps.foldl (fun h p => h.take p.start ++ highlightMarkup p ++ h.drop p.stop) t ++ b)
      = t ++ stripTagsAux false b := by
  induction ps generalizing t b with
  | nil => exact stripTagsAux_false_append ht b
  | cons p rest ih =>
    have hmem := List.mem_cons_self p rest
    have hpb := hb p hmem
    have hpw := hw p hmem
    have hstart_le : p.start ≤ t.length := le_trans hpw hpb
    have hrest_stop : ∀ q ∈ rest, q.stop ≤ (t.take p.start).length := by
      intro q hq
      have := (List.pairwise_cons.mp hord).1 q hq
      simp only [List.length_take]
      omega
    simp only [List.foldl_cons]
    rw [show t.take p.start ++ highlightMarkup p ++ t.drop p.stop =
        t.take p.start ++ (highlightMarkup p ++ t.drop p.stop) from
      List.append_assoc _ _ _]
    rw [foldl_markup_append rest (t.take p.start) (highlightMarkup p ++ t.drop p.stop)
      hrest_stop (fun q hq => hw q (List.mem_cons_of_mem p hq))
      (List.pairwise_cons.mp hord).2]
    rw [List.append_assoc, List.append_assoc]
    rw [ih (t.take p.start) (highlightMarkup p ++ (t.drop p.stop ++ b))
      (fun c hc => ht c (List.take_subset p.start t hc))
      hrest_stop
      (fun q hq => hw q (List.mem_cons_of_mem p hq))
      (List.pairwise_cons.mp hord).2
      (fun q hq => by
        rw [strSlice_take ((List.pairwise_cons.mp hord).1 q hq)]
        exact hslice q (List.mem_cons_of_mem p hq))
      (fun q hq => hkw q (List.mem_cons_of_mem p hq))
      (fun q hq => hcat q (List.mem_cons_of_mem p hq))]
    rw [strip_markup p (hkw p hmem) (hcat p hmem),
      stripTagsAux_false_append (fun c hc => ht c (List.drop_subset p.stop t hc))]
    rw [show t.take p.start ++ (p.keyword ++ (t.drop p.stop ++ stripTagsAux false b)) =
        (t.take p.start ++ (p.keyword ++ t.drop p.stop)) ++ stripTagsAux false b from by
      simp [List.append_assoc]]
    rw [← hslice p hmem, take_slice_drop hpw hpb]

theorem detection_fields_ok {t : List Char} {d : Detection} (hd : d ∈ fast_lexicon_filter t) :
    d.keyword ≠ [] ∧ (∀ c ∈ d.keyword, ¬c = '<') ∧ (∀ c ∈ d.category, ¬c = '>') := by
  obtain ⟨cat, hcat, kw, hkw, i, hsub, hfind, rfl⟩ := mem_fast_lexicon_filter hd
  obtain ⟨hkws, hname⟩ := table_entries_ok cat hcat
  exact ⟨(hkws kw hkw).1, fun c hc => ((hkws kw hkw).2 c hc).1, fun c hc => (hname c hc).2⟩

/-- Round trip of the highlighting rewrite over an arbitrary detection
list whose spans are pairwise disjoint, in bounds, nonempty, and match
the original text slice exactly. -/
theorem highlight_round_trip (t : List Char) (dets : List Detection)
    (ht : ∀ c ∈ t, ¬c = '<')
    (hbound : ∀ d ∈ dets, d.position + d.keyword.length ≤ t.length)
    (hne : ∀ d ∈ dets, d.keyword ≠ [])
    (hdisj : List.Pairwise (fun d1 d2 : Detection =>
        d1.position + d1.keyword.length ≤ d2.position ∨
        d2.position + d2.keyword.length ≤ d1.position) dets)
    (hcase : ∀ d ∈ dets, strSlice t d.position (d.position + d.keyword.length) = d.keyword)
    (hkw : ∀ d ∈ dets, ∀ c ∈ d.keyword, ¬c = '<')
    (hcat : ∀ d ∈ dets, ∀ c ∈ d.category, ¬c = '>') :
    stripTags (highlight_biased_words t dets) = t := by
  unfold stripTags
  simp only [highlight_biased_words]
  by_cases hnil : dets = []
  · rw [if_pos hnil]
    simpa [stripTagsAux] using stripTagsAux_false_append ht []
  · rw [if_neg hnil]
    set P : List BiasPosition := dets.map (fun d =>
      { start := d.position, stop := d.position + d.keyword.length
      , keyword := d.keyword, category := d.category
      , confidence := d.confidence : BiasPosition }) with hP
    set S : List BiasPosition := List.insertionSort posDescOrder P with hS
    have hmemP : ∀ p ∈ S, ∃ d ∈ dets,
        p = (⟨d.position, d.position + d.keyword.length, d.keyword,
              d.category, d.confidence⟩ : BiasPosition) := by
      intro p hp
      rw [hS, List.mem_insertionSort, hP, List.mem_map] at hp
      obtain ⟨d, hd, rfl⟩ := hp
      exact ⟨d, hd, rfl⟩
    have hperm : List.Perm S P := by
      rw [hS]
      exact List.perm_insertionSort posDescOrder P
    have hsortedp : List.Pairwise posDescOrder S := by
      rw [hS]
      exact List.sorted_insertionSort posDescOrder P
    have hdisjp : List.Pairwise (fun p q : BiasPosition =>
        p.stop ≤ q.start ∨ q.stop ≤ p.start) S := by
      refine (hperm.pairwise_iff ?_).mpr ?_
      · intro x y h
        exact h.symm
      · rw [hP, List.pairwise_map]
        exact hdisj
    have hord : List.Pairwise (fun p q : BiasPosition => q.stop ≤ p.start) S := by
      refine List.Pairwise.imp_of_mem ?_ (hsortedp.and hdisjp)
      intro p q hp hq hpq
      obtain ⟨d, hd, rfl⟩ := hmemP p hp
      rcases hpq.2 with h1 | h2
      · exfalso
        have hlen : 0 < d.keyword.length := List.length_pos.mpr (hne d hd)
        have hle : q.start ≤ d.position := hpq.1
        dsimp only at h1
        omega
      · exact h2
    have hfin := strip_foldl_markup S t []
      ht
      (by
        intro p hp
        obtain ⟨d, hd, rfl⟩ := hmemP p hp
        exact hbound d hd)
      (by
        intro p hp
        obtain ⟨d, hd, rfl⟩ := hmemP p hp
        exact Nat.le_add_right _ _)
      hord
      (by
        intro p hp
        obtain ⟨d, hd, rfl⟩ := hmemP p hp
        exact hcase d hd)
      (by
        intro p hp
        obtain ⟨d, hd, rfl⟩ := hmemP p hp
        exact hkw d hd)
      (by
        intro p hp
        obtain ⟨d, hd, rfl⟩ := hmemP p hp
        exact hcat d hd)
    simpa [stripTagsAux] using hfin

/-- C5 (amended): stripping the inserted markers reproduces the input
exactly whenever the detections' spans are pairwise disjoint and each
span reads, in the original text, exactly as the (lowercase) keyword —
e.g. for lowercase inputs in which no keyword occurrence overlaps
another (the input must also contain no `<`, which the tag-removal
reading of "stripping" needs). Overlapping or coinciding spans, and
case-changed matches, break the round trip (see the counterexample). -/
theorem C5_round_trip (t : List Char)
    (ht : ∀ c ∈ t, ¬c = '<')
    (hdisj : List.Pairwise (fun d1 d2 : Detection =>
        d1.position + d1.keyword.length ≤ d2.position ∨
        d2.position + d2.keyword.length ≤ d1.position) (fast_lexicon_filter t))
    (hcase : ∀ d ∈ fast_lexicon_filter t,
        strSlice t d.position (d.position + d.keyword.length) = d.keyword) :
    stripTags (highlight_biased_words t (fast_lexicon_filter t)) = t :=
  highlight_round_trip t (fast_lexicon_filter t) ht
    (fun _ hd => (detection_span_bound hd).1)
    (fun _ hd => (detection_fields_ok hd).1)
    hdisj hcase
    (fun _ hd => (detection_fields_ok hd).2.1)
    (fun _ hd => (detection_fields_ok hd).2.2)

/-- C5 counterexample: the claim fails as stated. For `"obviously"` two
categories produce coinciding spans and the second right-to-left rewrite
slices into the first marker's markup; for `"Stupid"` the rewrite
replaces the original slice by the lowercase keyword. In both cases
stripping the markers does not reproduce the input. -/
theorem C5_counterexample :
    stripTags (highlight_biased_words (cs "obviously")
        (fast_lexicon_filter (cs "obviously"))) ≠ cs "obviously" ∧
    stripTags (highlight_biased_words (cs "Stupid")
        (fast_lexicon_filter (cs "Stupid"))) ≠ cs "Stupid" := by
  constructor
  · with_unfolding_all exact of_decide_eq_true rfl
  · with_unfolding_all exact of_decide_eq_true rfl

/-- Witness for C5 on `"stupid"`: one detection, disjoint (singleton)
span matching the text in its original case; the round trip holds. -/
theorem C5_round_trip_witness :
    (∀ c ∈ cs "stupid", ¬c = '<') ∧
    List.Pairwise (fun d1 d2 : Detection =>
        d1.position + d1.keyword.length ≤ d2.position ∨
        d2.position + d2.keyword.length ≤ d1.position)
      (fast_lexicon_filter (cs "stupid")) ∧
    (∀ d ∈ fast_lexicon_filter (cs "stupid"),
        strSlice (cs "stupid") d.position (d.position + d.keyword.length) = d.keyword) ∧
    stripTags (highlight_biased_words (cs "stupid")
        (fast_lexicon_filter (cs "stupid"))) = cs "stupid" :=
  ⟨by decide,
   by with_unfolding_all exact of_decide_eq_true rfl,
   by with_unfolding_all exact of_decide_eq_true rfl,
   C5_round_trip (cs "stupid") (by decide)
     (by with_unfolding_all exact of_decide_eq_true rfl)
     (by with_unfolding_all exact of_decide_eq_true rfl)⟩
